import Mathlib

/-!
Verification of the MAC-address-based network discovery code in
`spawn_vm.py`: `gen_mac`, `run`, `get_if_ip_netmask`, `cidr_from_ip_mask`
(over the semantics of Python's `ipaddress` module), `arp_lookup_by_mac`
(over the semantics of its regular expression), the probe-window
computation of `light_ping_sweep`, and the discovery loop in `main`.

Python strings are modelled as `List Char`; fallible operations return
`Option`/`Except` (`none`/`.error` marks a raised exception); the random
source is a stream of naturals with a cursor; operating-system effects
(command outcomes, neighbour-cache text, the host address) are explicit
inputs; the loop's clock advances only at its explicit sleeps, by exactly
the slept amount.
-/

namespace SpawnVm

/-- Python strings are modelled as lists of characters. -/
abbrev Str := List Char

/-! ## Generic string helpers (Python `str.split(sep)`, `sep.join`, `str.strip`, `str.lower`) -/

/-- Python `s.split(c)` for a one-character separator: `"".split(c) == [""]`,
separators at the ends produce empty parts. -/
def splitOnChar (sep : Char) : Str → List Str
  | [] => [[]]
  | c :: cs =>
    match splitOnChar sep cs with
    | [] => []
    | p :: ps => if c = sep then [] :: p :: ps else (c :: p) :: ps

/-- Python `sep.join(parts)` for a one-character separator. -/
def intercalateChar (sep : Char) : List Str → Str
  | [] => []
  | [p] => p
  | p :: q :: ps => p ++ sep :: intercalateChar sep (q :: ps)

/-- Whitespace characters removed by Python `str.strip()` (ASCII subset). -/
def isPySpace (c : Char) : Bool :=
  c = ' ' ∨ c = '\t' ∨ c = '\n' ∨ c = '\r' ∨ c = '\x0b' ∨ c = '\x0c'

/-- Python `s.strip()`: drop leading and trailing whitespace. -/
def pyStrip (l : Str) : Str :=
  ((l.dropWhile isPySpace).reverse.dropWhile isPySpace).reverse

/-- Python `s.lower()` (ASCII letters; all characters compared here are ASCII). -/
def pyLower (l : Str) : Str := l.map Char.toLower

/-- Value of a string of decimal digits (`int(s, 10)` for all-digit `s`). -/
def decimalValue (s : Str) : Nat :=
  s.foldl (fun acc c => acc * 10 + (c.toNat - '0'.toNat)) 0

/-! ## `gen_mac` (spawn_vm.py lines 74-81)

`random.randint(a, b)` draws from the seeded Mersenne-Twister state and
returns a value in `a..b`; the state is modelled as the stream of draws
`vals` with a cursor `idx`, so that seeding fixes the whole stream. -/

/-- State of the `random` module after seeding: the stream of raw draws and
the position of the next draw. -/
structure RandGen where
  vals : Nat → Nat
  idx : Nat

/-- Python `random.randint(lo, hi)`: inclusive bounds, advances the state. -/
def randint (lo hi : Nat) (g : RandGen) : Nat × RandGen :=
  (lo + g.vals g.idx % (hi - lo + 1), ⟨g.vals, g.idx + 1⟩)

/-- Lowercase hexadecimal digit for a value below 16. -/
def hexDigitChar (n : Nat) : Char :=
  if n < 10 then Char.ofNat ('0'.toNat + n) else Char.ofNat ('a'.toNat + (n - 10))

/-- Python `f-string` formatting of a byte with format spec `02x` (two
lowercase hex digits, zero-padded); the bytes of `gen_mac` are below 256. -/
def pyHex02 (b : Nat) : Str := [hexDigitChar (b / 16), hexDigitChar (b % 16)]

/-- The byte list `mac` built by `gen_mac`: fixed QEMU prefix bytes
`0x52 0x54 0x00`, then `randint(0x00, 0x7f)`, `randint(0x00, 0xff)`, and
either `randint(0x00, 0xff)` (when `last_octet is None`) or
`last_octet & 0xFF`. -/
def genMacBytes (g : RandGen) (lastOctet : Option Nat) : List Nat × RandGen :=
  let r3 := randint 0x00 0x7f g
  let r4 := randint 0x00 0xff r3.2
  match lastOctet with
  | none =>
    let r5 := randint 0x00 0xff r4.2
    ([0x52, 0x54, 0x00, r3.1, r4.1, r5.1], r5.2)
  | some v => ([0x52, 0x54, 0x00, r3.1, r4.1, Nat.land v 0xff], r4.2)

/-- `gen_mac(last_octet=None)`: format the six bytes as `02x` pairs joined
by colons. -/
def gen_mac (g : RandGen) (lastOctet : Option Nat) : Str × RandGen :=
  let r := genMacBytes g lastOctet
  (intercalateChar ':' (r.1.map pyHex02), r.2)

/-! ## `run` and `get_if_ip_netmask` (spawn_vm.py lines 41-54, 83-87)

The operating system's response to one command invocation is an explicit
input: either the executable is missing (`subprocess.run` raises
`FileNotFoundError`, which `run` does not catch) or the process ran and
produced an exit status, stdout and stderr. -/

/-- Outcome of one external command at the OS boundary. -/
inductive CmdOutcome where
  | missing
  | ran (returncode : Int) (stdout stderr : Str)
deriving DecidableEq

/-- `run(cmd, check, capture=True)`: a missing executable propagates as an
exception; otherwise a non-zero status raises only when `check` is set, and
the stripped stdout is returned. -/
def run (outcome : CmdOutcome) (check : Bool) : Except Str Str :=
  match outcome with
  | .missing => .error ([ 'F', 'N', 'F' ])
  | .ran rc out _err =>
    if check ∧ rc ≠ 0 then .error ([ 'C', 'M', 'D' ]) else .ok (pyStrip out)

/-- Python `s or None` for a string `s`: `None` exactly when `s` is empty. -/
def noneIfEmpty (l : Str) : Option Str :=
  if l = [] then none else some l

/-- `get_if_ip_netmask(ifname)`: two `run(..., check=False)` queries, each
stripped again and turned into `None` when empty. The two `CmdOutcome`
inputs stand for the OS responses to `ipconfig getifaddr`/`getoption`. -/
def get_if_ip_netmask (o1 o2 : CmdOutcome) : Except Str (Option Str × Option Str) := do
  let ip ← run o1 false
  let mask ← run o2 false
  pure (noneIfEmpty (pyStrip ip), noneIfEmpty (pyStrip mask))

/-! ## Python `ipaddress` semantics (as used by `cidr_from_ip_mask` and
`light_ping_sweep`), translated from CPython `Lib/ipaddress.py` -/

/-- `IPv4Network._parse_octet`: non-empty, ASCII digits only, at most three
characters, no leading zero (except `"0"` itself), value at most 255. -/
def parse_octet (s : Str) : Option Nat :=
  if s = [] then none
  else if ¬ s.all Char.isDigit then none
  else if s.length > 3 then none
  else if s ≠ ['0'] ∧ s.head? = some '0' then none
  else
    let v := decimalValue s
    if v > 255 then none else some v

/-- `_ip_int_from_string`: exactly four dot-separated octets, big-endian
value. -/
def ip_int_from_string (l : Str) : Option Nat :=
  if l = [] then none
  else
    match splitOnChar '.' l with
    | [s1, s2, s3, s4] => do
      let o1 ← parse_octet s1
      let o2 ← parse_octet s2
      let o3 ← parse_octet s3
      let o4 ← parse_octet s4
      pure (o1 * 16777216 + o2 * 65536 + o3 * 256 + o4)
    | _ => none

/-- `_prefix_from_prefix_string`: ASCII digits only (so no sign, no spaces),
value at most 32. -/
def prefix_from_prefix_string (s : Str) : Option Nat :=
  if s = [] then none
  else if ¬ s.all Char.isDigit then none
  else
    let v := decimalValue s
    if v ≤ 32 then some v else none

/-- Trailing zero bits of `n`, with fuel (callers pass `n` below `2 ^ fuel`
or guard `n = 0` beforehand). -/
def ctzAux : Nat → Nat → Nat
  | 0, _ => 0
  | fuel + 1, n => if n % 2 = 0 then ctzAux fuel (n / 2) + 1 else 0

/-- `_count_righthand_zero_bits(number, bits)`: `bits` when the number is
zero, otherwise the number of low zero bits capped at `bits`. -/
def count_righthand_zero_bits (n bits : Nat) : Nat :=
  if n = 0 then bits else min bits (ctzAux bits n)

/-- `_prefix_from_ip_int` for IPv4: the value must be ones followed by
zeroes; returns the number of one bits. -/
def prefix_from_ip_int (n : Nat) : Option Nat :=
  let tz := count_righthand_zero_bits n 32
  let p := 32 - tz
  if n >>> tz = 2 ^ p - 1 then some p else none

/-- `_prefix_from_ip_string`: parse as a dotted quad, accept it as a
netmask, or else accept its complement as one (hostmask form). -/
def prefix_from_ip_string (s : Str) : Option Nat :=
  match ip_int_from_string s with
  | none => none
  | some n =>
    match prefix_from_ip_int n with
    | some p => some p
    | none => prefix_from_ip_int (n ^^^ (2 ^ 32 - 1))

/-- `IPv4Network._make_netmask` for a string argument: prefix-length form
first, then dotted netmask/hostmask form. -/
def make_netmask (s : Str) : Option Nat :=
  match prefix_from_prefix_string s with
  | some p => some p
  | none => prefix_from_ip_string s

/-- `_ip_int_from_prefix`: `ALL_ONES ^ (ALL_ONES >> prefixlen)`. -/
def netmaskInt (p : Nat) : Nat := (2 ^ 32 - 1) ^^^ ((2 ^ 32 - 1) >>> p)

/-- An IPv4 network: masked network address and prefix length. -/
structure IPv4Net where
  addr : Nat
  prefixlen : Nat
deriving DecidableEq

/-- `ipaddress.IPv4Network(s, strict=False)` for a string `s`: at most one
`/`; a missing mask means `/32`; the address is masked (`strict=False`
clears host bits instead of raising). -/
def ipv4NetworkOfString (s : Str) : Option IPv4Net :=
  match splitOnChar '/' s with
  | [a] => do
    let ip ← ip_int_from_string a
    pure ⟨Nat.land ip (netmaskInt 32), 32⟩
  | [a, m] => do
    let ip ← ip_int_from_string a
    let p ← make_netmask m
    pure ⟨Nat.land ip (netmaskInt p), p⟩
  | _ => none

/-- `cidr_from_ip_mask(ip, mask)` (spawn_vm.py lines 89-97): try
`IPv4Network(f"ip/mask", strict=False)`; on any failure fall back to
`".".join(parts[:3] + ["0"]) + "/24"` over the dot-parts of `ip`. `none`
models an exception escaping the fallback itself. -/
def cidr_from_ip_mask (ip mask : Str) : Option IPv4Net :=
  match ipv4NetworkOfString (ip ++ '/' :: mask) with
  | some n => some n
  | none =>
    let parts := splitOnChar '.' ip
    ipv4NetworkOfString (intercalateChar '.' (parts.take 3 ++ [['0']]) ++ ['/', '2', '4'])

/-- Modelled from the spec's words, for comparison with the code: standard
CIDR arithmetic assigns to a host address the network of the given prefix
length obtained by clearing the `32 - p` host bits. -/
def cidrContaining (a p : Nat) : IPv4Net :=
  ⟨a / 2 ^ (32 - p) * 2 ^ (32 - p), p⟩

/-- `broadcast_address`: network address with all host bits set. -/
def broadcastOf (n : IPv4Net) : Nat :=
  Nat.lor n.addr ((2 ^ 32 - 1) ^^^ netmaskInt n.prefixlen)

/-- Python `range(a, b)` as a list. -/
def pyRange (a b : Nat) : List Nat := (List.range (b - a)).map (a + ·)

/-- `list(network.hosts())` for `IPv4Network`: all addresses strictly
between network and broadcast; `/31` keeps both endpoints, `/32` is the
single address. -/
def hostsOf (n : IPv4Net) : List Nat :=
  if n.prefixlen = 31 then pyRange n.addr (broadcastOf n + 1)
  else if n.prefixlen = 32 then [n.addr]
  else pyRange (n.addr + 1) (broadcastOf n)

/-! ## The `arp -an` line matcher (spawn_vm.py lines 99-106)

`re.search(r"\((?P<ip>\d+\.\d+\.\d+\.\d+)\).* at (?P<mac>[0-9a-f:]{17}) ", line, re.I)`
is translated exactly: leftmost start position; `\d+` is maximal-munch
(digits, `.` and `)` are disjoint, so greedy matching with backtracking
coincides with maximal munch); the greedy `.*` makes the engine take the
rightmost position after the `)` at which `" at "` (case-insensitive),
seventeen characters of the class `[0-9a-fA-F:]`, and a space all match. -/

/-- Maximal run of decimal digits and the remainder (`\d*`). -/
def takeDigits : Str → Str × Str
  | [] => ([], [])
  | c :: cs =>
    if c.isDigit then
      let r := takeDigits cs
      (c :: r.1, r.2)
    else ([], c :: cs)

/-- Match `\d+\.\d+\.\d+\.\d+` at the head of the input, returning the
matched text and the remainder. -/
def parseIpGroup (l : Str) : Option (Str × Str) :=
  let t1 := takeDigits l
  if t1.1 = [] then none else
  match t1.2 with
  | '.' :: r2 =>
    let t2 := takeDigits r2
    if t2.1 = [] then none else
    match t2.2 with
    | '.' :: r4 =>
      let t3 := takeDigits r4
      if t3.1 = [] then none else
      match t3.2 with
      | '.' :: r6 =>
        let t4 := takeDigits r6
        if t4.1 = [] then none else
        some (t1.1 ++ '.' :: t2.1 ++ '.' :: t3.1 ++ '.' :: t4.1, t4.2)
      | _ => none
    | _ => none
  | _ => none

/-- A lowercase hexadecimal digit, the alphabet of `gen_mac`'s octets. -/
def isLowerHexDigit (c : Char) : Bool :=
  c.isDigit ∨ ('a' ≤ c ∧ c ≤ 'f')

/-- The character class `[0-9a-f:]` under `re.I`. -/
def isMacClass (c : Char) : Bool :=
  c.isDigit ∨ ('a' ≤ c ∧ c ≤ 'f') ∨ ('A' ≤ c ∧ c ≤ 'F') ∨ c = ':'

/-- Match `" at [0-9a-f:]{17} "` (case-insensitively) at the head of the
input, returning the seventeen captured characters. -/
def tailMatchHere : Str → Option Str
  | ' ' :: a :: t :: ' ' :: rest =>
    if a.toLower = 'a' ∧ t.toLower = 't' then
      let macc := rest.take 17
      if macc.length = 17 ∧ macc.all isMacClass then
        match rest.drop 17 with
        | ' ' :: _ => some macc
        | _ => none
      else none
    else none
  | _ => none

/-- Rightmost position at which `tailMatchHere` succeeds (the greedy `.*`
backtracks from the end of the line). -/
def findRightmost : Str → Option Str
  | [] => none
  | c :: cs =>
    match findRightmost cs with
    | some m => some m
    | none => tailMatchHere (c :: cs)

/-- Match the whole pattern anchored at the head of the input, returning
the `ip` and `mac` capture groups. -/
def reMatchAt : Str → Option (Str × Str)
  | '(' :: rest =>
    match parseIpGroup rest with
    | some (ip, r) =>
      match r with
      | ')' :: r2 =>
        match findRightmost r2 with
        | some mac => some (ip, mac)
        | none => none
      | _ => none
    | none => none
  | _ => none

/-- `re.search` of the pattern in a line: leftmost start position wins. -/
def reSearch : Str → Option (Str × Str)
  | [] => none
  | c :: cs =>
    match reMatchAt (c :: cs) with
    | some r => some r
    | none => reSearch cs

/-- One iteration of the `arp_lookup_by_mac` loop body on a line: the line
yields an address only when the pattern matches and the captured MAC,
lowercased, equals the target string. -/
def lineMatch (mac_lower line : Str) : Option Str :=
  match reSearch line with
  | some r => if pyLower r.2 = mac_lower then some r.1 else none
  | none => none

/-- `arp_lookup_by_mac(mac_lower)` over the lines of the `arp -an` output:
first matching line wins, `None` otherwise. -/
def arp_lookup_by_mac (mac_lower : Str) (lines : List Str) : Option Str :=
  match lines with
  | [] => none
  | line :: rest =>
    match lineMatch mac_lower line with
    | some ip => some ip
    | none => arp_lookup_by_mac mac_lower rest

/-! ## The probe window of `light_ping_sweep` (spawn_vm.py lines 108-122) -/

/-- Python `l[a:b]` for clamped non-negative bounds. -/
def pySlice (l : List Nat) (a b : Nat) : List Nat := (l.take b).drop a

/-- The window `hosts[max(0, idx-window):min(len(hosts), idx+window)]` with
`window = max(1, min(limit//2, len(hosts)//2))`. Over naturals,
`max(0, idx - window)` is truncated subtraction. -/
def probeWindowAt (hosts : List Nat) (idx limit : Nat) : List Nat :=
  let window := max 1 (min (limit / 2) (hosts.length / 2))
  pySlice hosts (idx - window) (min hosts.length (idx + window))

/-- `hosts.index(host)` with the `ValueError` fallback to `len(hosts)//2`. -/
def hostIndex (hosts : List Nat) (host : Nat) : Nat :=
  match hosts.findIdx? (fun x => x = host) with
  | some i => i
  | none => hosts.length / 2

/-- The candidate addresses pinged by `light_ping_sweep`: empty when the
host address is absent (early return); the host string is parsed by
`IPv4Address` (an unparseable string raises, modelled as `none`); otherwise
the window around the host's index in the subnet's host list. -/
def light_ping_sweep_candidates (network : IPv4Net) (host_ip : Option Str) (limit : Nat) :
    Option (List Nat) :=
  match host_ip with
  | none => some []
  | some s =>
    match ip_int_from_string s with
    | none => none
    | some host =>
      let hosts := hostsOf network
      some (probeWindowAt hosts (hostIndex hosts host) limit)

/-! ## The discovery loop of `main` (spawn_vm.py lines 218-233)

Idealised timing: each iteration's lookup and sweep are instantaneous and
the clock advances by the poll interval at the final `time.sleep(0.5)`.
Elapsed time is measured in tenths of a second, an order-preserving
rescaling under which every constant of the source is integral: the 0.5 s
poll is 5, the initial 1.0 s sweep delay is 10, the 5.0 s sweep interval is
50, a 2 s timeout is 20. `lookup t` is the neighbour-cache answer at
elapsed time `t`; the recorded `sweepTimes` are the elapsed times at which
`light_ping_sweep` fired. -/

/-- Terminal observation of one discovery attempt (times in tenths of a
second). -/
structure DiscoveryOutcome where
  ipFound : Option Str
  elapsed : Nat
  sweepTimes : List Nat
deriving DecidableEq

/-- The `while time.time() - t0 < timeout` loop: check the cache, fire a
sweep when the subnet is known and `next_sweep` has been reached (then
postpone it by `sweepEvery`), sleep `poll`. Fuel bounds the number of
iterations; every run below uses ample fuel. -/
def discoveryLoopAux (lookup : Nat → Option Str) (hasSubnet : Bool)
    (timeout sweepEvery poll : Nat) :
    Nat → Nat → Nat → List Nat → DiscoveryOutcome
  | 0, t, _, sweeps => ⟨none, t, sweeps.reverse⟩
  | fuel + 1, t, nextSweep, sweeps =>
    if t < timeout then
      match lookup t with
      | some ip => ⟨some ip, t, sweeps.reverse⟩
      | none =>
        if hasSubnet ∧ nextSweep ≤ t then
          discoveryLoopAux lookup hasSubnet timeout sweepEvery poll fuel
            (t + poll) (t + sweepEvery) (t :: sweeps)
        else
          discoveryLoopAux lookup hasSubnet timeout sweepEvery poll fuel
            (t + poll) nextSweep sweeps
    else ⟨none, t, sweeps.reverse⟩

/-- One discovery attempt as `main` sets it up: `sweep_every = 5.0` (50),
`next_sweep = t0 + 1.0` (10), poll interval `0.5` (5), elapsed time
starting at 0. -/
def discoveryRun (lookup : Nat → Option Str) (hasSubnet : Bool) (timeout : Nat)
    (fuel : Nat) : DiscoveryOutcome :=
  discoveryLoopAux lookup hasSubnet timeout 50 5 fuel 0 10 []

/-! ## Lemmas about the string helpers -/

theorem splitOnChar_ne_nil (sep : Char) (l : Str) : splitOnChar sep l ≠ [] := by
  induction l with
  | nil => simp [splitOnChar]
  | cons c cs ih =>
    cases h : splitOnChar sep cs with
    | nil => exact absurd h ih
    | cons p ps => by_cases hc : c = sep <;> simp [splitOnChar, h, hc]

theorem splitOnChar_cons_sep (sep : Char) (ys : Str) :
    splitOnChar sep (sep :: ys) = [] :: splitOnChar sep ys := by
  simp only [splitOnChar]
  cases h : splitOnChar sep ys with
  | nil => exact absurd h (splitOnChar_ne_nil sep ys)
  | cons p ps => simp

theorem splitOnChar_cons_of_ne (sep c : Char) (ys p : Str) (ps : List Str)
    (hc : ¬ c = sep) (h : splitOnChar sep ys = p :: ps) :
    splitOnChar sep (c :: ys) = (c :: p) :: ps := by
  simp only [splitOnChar, h]
  simp [hc]

theorem splitOnChar_append_sep (sep : Char) (xs ys : Str) (h : sep ∉ xs) :
    splitOnChar sep (xs ++ sep :: ys) = xs :: splitOnChar sep ys := by
  induction xs with
  | nil => simpa using splitOnChar_cons_sep sep ys
  | cons c cs ih =>
    have hc : ¬ c = sep := fun e => h (by simp [e])
    have hcs := ih (fun m => h (List.mem_cons_of_mem _ m))
    simpa using splitOnChar_cons_of_ne sep c (cs ++ sep :: ys) cs (splitOnChar sep ys) hc hcs

theorem splitOnChar_of_not_mem (sep : Char) (l : Str) (h : sep ∉ l) :
    splitOnChar sep l = [l] := by
  induction l with
  | nil => rfl
  | cons c cs ih =>
    have hc : ¬ c = sep := fun e => h (by simp [e])
    exact splitOnChar_cons_of_ne sep c cs cs [] hc (ih (fun m => h (List.mem_cons_of_mem _ m)))

theorem splitOnChar_intercalate (sep : Char) (parts : List Str)
    (h : ∀ p ∈ parts, sep ∉ p) (hne : parts ≠ []) :
    splitOnChar sep (intercalateChar sep parts) = parts := by
  induction parts with
  | nil => exact absurd rfl hne
  | cons p ps ih =>
    cases ps with
    | nil => exact splitOnChar_of_not_mem sep p (h p (by simp))
    | cons q qs =>
      rw [show intercalateChar sep (p :: q :: qs) = p ++ sep :: intercalateChar sep (q :: qs)
        from rfl]
      rw [splitOnChar_append_sep sep p _ (h p (by simp))]
      rw [ih (fun r hr => h r (by simp [hr])) (by simp)]

theorem intercalate_splitOnChar (sep : Char) (l : Str) :
    intercalateChar sep (splitOnChar sep l) = l := by
  induction l with
  | nil => rfl
  | cons c cs ih =>
    cases h : splitOnChar sep cs with
    | nil => exact absurd h (splitOnChar_ne_nil sep cs)
    | cons q qs =>
      rw [h] at ih
      by_cases hc : c = sep
      · rw [hc, splitOnChar_cons_sep, h]
        simp [intercalateChar, ih]
      · rw [splitOnChar_cons_of_ne sep c cs q qs hc h]
        cases qs with
        | nil =>
          simp only [intercalateChar] at ih ⊢
          simp [ih]
        | cons r rs =>
          simp only [intercalateChar] at ih ⊢
          simp [ih]

theorem mem_intercalateChar (sep : Char) (parts : List Str) (c : Char)
    (hc : c ∈ intercalateChar sep parts) : c = sep ∨ ∃ p ∈ parts, c ∈ p := by
  induction parts with
  | nil => simp [intercalateChar] at hc
  | cons p ps ih =>
    cases ps with
    | nil => exact Or.inr ⟨p, by simp, hc⟩
    | cons q qs =>
      rw [show intercalateChar sep (p :: q :: qs) = p ++ sep :: intercalateChar sep (q :: qs)
        from rfl] at hc
      rcases List.mem_append.1 hc with hp | hrest
      · exact Or.inr ⟨p, by simp, hp⟩
      · rcases List.mem_cons.1 hrest with rfl | htail
        · exact Or.inl rfl
        · rcases ih htail with h | ⟨r, hr, hcr⟩
          · exact Or.inl h
          · exact Or.inr ⟨r, by simp [List.mem_cons.1 hr], hcr⟩

theorem sep_not_mem_of_mem_splitOnChar (sep : Char) (l : Str) :
    ∀ p ∈ splitOnChar sep l, sep ∉ p := by
  induction l with
  | nil =>
    intro p hp
    simp [splitOnChar] at hp
    simp [hp]
  | cons c cs ih =>
    intro p hp
    cases h : splitOnChar sep cs with
    | nil => exact absurd h (splitOnChar_ne_nil sep cs)
    | cons q qs =>
      by_cases hc : c = sep
      · subst hc
        rw [splitOnChar_cons_sep, h] at hp
        rcases List.mem_cons.1 hp with rfl | hp'
        · simp
        · exact ih p (h ▸ hp')
      · rw [splitOnChar_cons_of_ne sep c cs q qs hc h] at hp
        rcases List.mem_cons.1 hp with rfl | hp'
        · intro hmem
          rcases List.mem_cons.1 hmem with e | hq
          · exact hc e.symm
          · exact ih q (by simp [h]) hq
        · exact ih p (by simp [h, hp'])

theorem dropWhile_dropWhile (p : Char → Bool) (l : Str) :
    (l.dropWhile p).dropWhile p = l.dropWhile p := by
  induction l with
  | nil => rfl
  | cons c cs ih =>
    by_cases hc : p c
    · simp [List.dropWhile, hc, ih]
    · simp [List.dropWhile, hc]

theorem dropWhile_head_false (p : Char → Bool) (l : Str) (c : Char) (t : Str)
    (h : l.dropWhile p = c :: t) : p c = false := by
  induction l with
  | nil => simp [List.dropWhile] at h
  | cons d ds ih =>
    by_cases hd : p d
    · exact ih (by simpa [List.dropWhile, hd] using h)
    · rw [List.dropWhile_cons_of_neg hd] at h
      cases h
      simpa using hd

theorem pyStrip_idem (l : Str) : pyStrip (pyStrip l) = pyStrip l := by
  unfold pyStrip
  set p := isPySpace
  set l1 := l.dropWhile p with hl1
  have hpre : l1 = ((l1.reverse.dropWhile p).reverse) ++ (l1.reverse.takeWhile p).reverse := by
    conv_lhs => rw [← List.reverse_reverse l1, ← List.takeWhile_append_dropWhile p l1.reverse]
    rw [List.reverse_append]
  have hdrop1 : (((l1.reverse.dropWhile p).reverse)).dropWhile p =
      ((l1.reverse.dropWhile p).reverse) := by
    cases hh : (l1.reverse.dropWhile p).reverse with
    | nil => rfl
    | cons c t =>
      have hcl1 : ∃ t', l1 = c :: t' := by
        rw [hpre, hh]
        exact ⟨t ++ (l1.reverse.takeWhile p).reverse, rfl⟩
      rcases hcl1 with ⟨t', ht'⟩
      have : p c = false := dropWhile_head_false p l c t' (hl1 ▸ ht')
      rw [List.dropWhile_cons_of_neg (by simp [this])]
  rw [hdrop1, List.reverse_reverse, dropWhile_dropWhile]

theorem pyStrip_eq_nil_iff (l : Str) : pyStrip l = [] ↔ ∀ c ∈ l, isPySpace c = true := by
  unfold pyStrip
  constructor
  · intro h c hc
    have h1 : (l.dropWhile isPySpace).reverse.dropWhile isPySpace = [] := by
      simpa using congrArg List.reverse h
    have h2 : ∀ c ∈ (l.dropWhile isPySpace).reverse, isPySpace c = true :=
      List.dropWhile_eq_nil_iff.1 h1
    have h3 : ∀ c ∈ l.dropWhile isPySpace, isPySpace c = true := by
      intro c hc; exact h2 c (by simpa using hc)
    have h4 : ∀ c ∈ l.takeWhile isPySpace, isPySpace c = true := by
      intro c hc; exact List.mem_takeWhile_imp hc
    rcases List.mem_append.1 ((List.takeWhile_append_dropWhile isPySpace l) ▸ hc) with h5 | h5
    · exact h4 c h5
    · exact h3 c h5
  · intro h
    have : l.dropWhile isPySpace = [] := List.dropWhile_eq_nil_iff.2 h
    simp [this, List.dropWhile]

/-! ## Bitwise arithmetic bridges -/

theorem land_two_pow_sub_one (a n : Nat) : Nat.land a (2 ^ n - 1) = a % 2 ^ n := by
  apply Nat.eq_of_testBit_eq
  intro i
  rw [show Nat.land a (2 ^ n - 1) = a &&& (2 ^ n - 1) from rfl, Nat.testBit_land,
    Nat.testBit_two_pow_sub_one, Nat.testBit_mod_two_pow]
  exact Bool.and_comm _ _

theorem land_netmaskInt (a p : Nat) (ha : a < 2 ^ 32) (hp : p ≤ 32) :
    Nat.land a (netmaskInt p) = a / 2 ^ (32 - p) * 2 ^ (32 - p) := by
  have hk : a / 2 ^ (32 - p) * 2 ^ (32 - p) = (a >>> (32 - p)) <<< (32 - p) := by
    rw [Nat.shiftLeft_eq, Nat.shiftRight_eq_div_pow]
  rw [hk]
  apply Nat.eq_of_testBit_eq
  intro i
  rw [show Nat.land a (netmaskInt p) = a &&& netmaskInt p from rfl, Nat.testBit_land,
    netmaskInt, Nat.testBit_xor, Nat.testBit_shiftRight, Nat.testBit_two_pow_sub_one,
    Nat.testBit_two_pow_sub_one, Nat.testBit_shiftLeft, Nat.testBit_shiftRight]
  by_cases h1 : i < 32 - p
  · have d1 : i < 32 := by omega
    have d2 : p + i < 32 := by omega
    have d3 : ¬ (i ≥ 32 - p) := by omega
    simp [d1, d2, d3]
  · by_cases h2 : i < 32
    · have e : 32 - p + (i - (32 - p)) = i := by omega
      have d2 : ¬ (p + i < 32) := by omega
      simp [h2, d2, e, show i ≥ 32 - p from by omega]
    · have hb : a.testBit i = false := by
        apply Nat.testBit_lt_two_pow
        exact lt_of_lt_of_le ha (Nat.pow_le_pow_right (by norm_num) (by omega))
      have e : 32 - p + (i - (32 - p)) = i := by omega
      simp [hb, e, show ¬ (i < 32) from h2, show ¬ (p + i < 32) from by omega]

/-! ## Lemmas about `gen_mac` -/

theorem randint_le (lo hi : Nat) (g : RandGen) (h : lo ≤ hi) : (randint lo hi g).1 ≤ hi := by
  have : g.vals g.idx % (hi - lo + 1) < hi - lo + 1 := Nat.mod_lt _ (by omega)
  simp only [randint]
  omega

theorem hexDigitChar_lowerHex (n : Nat) (h : n < 16) :
    isLowerHexDigit (hexDigitChar n) = true := by
  interval_cases n <;> decide

theorem pyHex02_shape (b : Nat) :
    (pyHex02 b).length = 2 ∧ (b < 256 → (pyHex02 b).all isLowerHexDigit = true) := by
  refine ⟨rfl, fun hb => ?_⟩
  have h1 : b / 16 < 16 := by omega
  have h2 : b % 16 < 16 := Nat.mod_lt _ (by norm_num)
  simp [pyHex02, List.all_cons, hexDigitChar_lowerHex _ h1, hexDigitChar_lowerHex _ h2]

theorem lowerHex_ne_colon (c : Char) (h : isLowerHexDigit c = true) : ¬ c = ':' := by
  intro e
  rw [e] at h
  exact absurd h (by decide)

theorem genMacBytes_shape (g : RandGen) (lastOctet : Option Nat) :
    ∃ b4 b5 b6, (genMacBytes g lastOctet).1 = [0x52, 0x54, 0x00, b4, b5, b6] ∧
      b4 ≤ 0x7f ∧ b5 ≤ 0xff ∧ b6 ≤ 0xff ∧
      (∀ v, lastOctet = some v → b6 = v % 256) := by
  have h4 := randint_le 0x00 0x7f g (by norm_num)
  cases lastOctet with
  | none =>
    refine ⟨_, _, _, rfl, h4, randint_le 0x00 0xff _ (by norm_num),
      randint_le 0x00 0xff _ (by norm_num), fun v hv => by cases hv⟩
  | some v =>
    have hland : Nat.land v 0xff = v % 256 := by
      have : (0xff : Nat) = 2 ^ 8 - 1 := by norm_num
      rw [this, land_two_pow_sub_one]
      norm_num
    refine ⟨_, _, _, rfl, h4, randint_le 0x00 0xff _ (by norm_num), ?_, fun w hw => ?_⟩
    · rw [hland]; exact Nat.le_of_lt_succ (Nat.mod_lt _ (by norm_num))
    · cases hw; exact hland

/-! ## Claim theorems for `gen_mac` -/

/-- C6. `gen_mac` always yields six colon-separated two-character lowercase
hexadecimal octets beginning `52:54:00`, and a supplied last octet in
`0..255` is reproduced verbatim (as its two-digit lowercase hex encoding). -/
theorem gen_mac_format (g : RandGen) (lastOctet : Option Nat) :
    ∃ w4 w5 w6 : Str,
      splitOnChar ':' (gen_mac g lastOctet).1 =
        [['5', '2'], ['5', '4'], ['0', '0'], w4, w5, w6] ∧
      (∀ w ∈ [w4, w5, w6], w.length = 2 ∧ w.all isLowerHexDigit = true) ∧
      (∀ v, lastOctet = some v → v ≤ 255 → w6 = pyHex02 v) := by
  obtain ⟨b4, b5, b6, hbytes, hb4, hb5, hb6, hlast⟩ := genMacBytes_shape g lastOctet
  refine ⟨pyHex02 b4, pyHex02 b5, pyHex02 b6, ?_, ?_, ?_⟩
  · rw [gen_mac]
    simp only [hbytes, List.map]
    rw [splitOnChar_intercalate]
    · rfl
    · intro p hp hmem
      have : isLowerHexDigit ':' = true := by
        simp only [List.mem_cons] at hp
        rcases hp with rfl | rfl | rfl | rfl | rfl | rfl | h
        · exact List.all_eq_true.1 ((pyHex02_shape 0x52).2 (by norm_num)) _ hmem
        · exact List.all_eq_true.1 ((pyHex02_shape 0x54).2 (by norm_num)) _ hmem
        · exact List.all_eq_true.1 ((pyHex02_shape 0x00).2 (by norm_num)) _ hmem
        · exact List.all_eq_true.1 ((pyHex02_shape b4).2 (by omega)) _ hmem
        · exact List.all_eq_true.1 ((pyHex02_shape b5).2 (by omega)) _ hmem
        · exact List.all_eq_true.1 ((pyHex02_shape b6).2 (by omega)) _ hmem
        · simp at h
      exact absurd this (by decide)
    · simp
  · intro w hw
    simp only [List.mem_cons] at hw
    rcases hw with rfl | rfl | rfl | h
    · exact ⟨(pyHex02_shape b4).1, (pyHex02_shape b4).2 (by omega)⟩
    · exact ⟨(pyHex02_shape b5).1, (pyHex02_shape b5).2 (by omega)⟩
    · exact ⟨(pyHex02_shape b6).1, (pyHex02_shape b6).2 (by omega)⟩
    · simp at h
  · intro v hv hv255
    rw [hlast v hv, Nat.mod_eq_of_lt (by omega)]

/-- C6 witness: a pinned last octet `0xcc` at a concrete generator state. -/
theorem gen_mac_format_witness :
    ∃ w4 w5 w6 : Str,
      splitOnChar ':' (gen_mac ⟨fun n => n, 0⟩ (some 0xcc)).1 =
        [['5', '2'], ['5', '4'], ['0', '0'], w4, w5, w6] ∧
      (∀ w ∈ [w4, w5, w6], w.length = 2 ∧ w.all isLowerHexDigit = true) ∧
      (∀ v, (some 0xcc : Option Nat) = some v → v ≤ 255 → w6 = pyHex02 v) :=
  gen_mac_format ⟨fun n => n, 0⟩ (some 0xcc)

/-- C7. The MAC generator is a deterministic function of the seeded
random-source state: two generators left in the same state by
`random.seed(name)` produce the same address string. -/
theorem gen_mac_deterministic (g1 g2 : RandGen) (lastOctet : Option Nat)
    (hvals : g1.vals = g2.vals) (hidx : g1.idx = g2.idx) :
    (gen_mac g1 lastOctet).1 = (gen_mac g2 lastOctet).1 := by
  obtain ⟨v1, i1⟩ := g1
  obtain ⟨v2, i2⟩ := g2
  simp only at hvals hidx
  rw [hvals, hidx]

/-- C7 witness: equal seeded states at a concrete stream. -/
theorem gen_mac_deterministic_witness :
    (gen_mac ⟨fun n => n * 7, 0⟩ none).1 = (gen_mac ⟨fun n => n * 7, 0⟩ none).1 :=
  gen_mac_deterministic ⟨fun n => n * 7, 0⟩ ⟨fun n => n * 7, 0⟩ none rfl rfl

/-- C10. The fourth octet of every generated address (the first random
byte) is drawn from `randint(0x00, 0x7f)`, hence at most `0x7f`; and every
value up to `0x7f` is attainable, so exactly half of a full octet's range
is used. -/
theorem gen_mac_fourth_octet_range (g : RandGen) (lastOctet : Option Nat) :
    (∃ b4 b5 b6, (genMacBytes g lastOctet).1 = [0x52, 0x54, 0x00, b4, b5, b6] ∧ b4 ≤ 0x7f) ∧
    (∀ v, v ≤ 0x7f → ∃ g' b5 b6,
      (genMacBytes g' lastOctet).1 = [0x52, 0x54, 0x00, v, b5, b6]) := by
  constructor
  · obtain ⟨b4, b5, b6, hbytes, hb4, -⟩ := genMacBytes_shape g lastOctet
    exact ⟨b4, b5, b6, hbytes, hb4⟩
  · intro v hv
    have h1 : (0 : Nat) + v % (0x7f - 0 + 1) = v := by
      simpa using Nat.mod_eq_of_lt (show v < 128 by omega)
    cases lastOctet with
    | none =>
      exact ⟨⟨fun _ => v, 0⟩, 0 + v % (0xff - 0 + 1), 0 + v % (0xff - 0 + 1),
        by simp [genMacBytes, randint, h1]⟩
    | some w =>
      exact ⟨⟨fun _ => v, 0⟩, 0 + v % (0xff - 0 + 1), Nat.land w 0xff,
        by simp [genMacBytes, randint, h1]⟩

/-- C10 witness: the bound and attainability at concrete inputs. -/
theorem gen_mac_fourth_octet_range_witness :
    ∃ g' b5 b6, (genMacBytes g' none).1 = [0x52, 0x54, 0x00, 0x7f, b5, b6] :=
  (gen_mac_fourth_octet_range ⟨fun _ => 0, 0⟩ none).2 0x7f (by norm_num)

/-! ## Claim theorems for `arp_lookup_by_mac` -/

/-- C8. The lookup is total: a line on which the pattern fails or the MAC
differs contributes nothing, and when no line matches the result is `None`
(never an exception, which the model would represent by a distinct
codomain). This covers empty output (`lines = []`) and arbitrary garbage. -/
theorem arp_lookup_no_match_none (mac : Str) (lines : List Str)
    (h : ∀ l ∈ lines, lineMatch mac l = none) :
    arp_lookup_by_mac mac lines = none := by
  induction lines with
  | nil => rfl
  | cons l rest ih =>
    simp only [arp_lookup_by_mac]
    rw [h l (by simp)]
    exact ih (fun l' h' => h l' (by simp [h']))

/-- C8 witness: empty output plus assorted malformed lines yield `None`. -/
theorem arp_lookup_no_match_none_witness :
    arp_lookup_by_mac ('5' :: '2' :: ":54:00:aa:bb:cc".data)
      [[], "? (10.0.0.99) at (incomplete)".data, "garbage".data] = none :=
  arp_lookup_no_match_none _ _ (by decide)

/-- C1 counterexample: the function lowercases only the cache-side MAC, so
an uppercase target fails against a lowercase cache entry even though the
two are equal up to case; the claim's instance returns `None`, not the
entry's address. -/
theorem arp_lookup_case_cex :
    arp_lookup_by_mac "52:54:00:AA:BB:CC".data
      ["? (10.0.0.5) at 52:54:00:aa:bb:cc on en1 ifscope [ethernet]".data] = none ∧
    pyLower "52:54:00:AA:BB:CC".data = pyLower "52:54:00:aa:bb:cc".data := by
  constructor
  · decide
  · decide

/-- C1 (amended). For a lowercase target (as the caller constructs with
`mac.lower()`), the lookup returns the address of the first line whose
parsed MAC, lowercased, equals the target, and the cache side is matched
case-insensitively. -/
theorem arp_lookup_first_match (mac ip l : Str) (pre rest : List Str)
    (hpre : ∀ l' ∈ pre, lineMatch mac l' = none) (hl : lineMatch mac l = some ip) :
    arp_lookup_by_mac mac (pre ++ l :: rest) = some ip := by
  induction pre with
  | nil => simp [arp_lookup_by_mac, hl]
  | cons q qs ih =>
    simp only [List.cons_append, arp_lookup_by_mac]
    rw [hpre q (by simp)]
    exact ih (fun l' h' => hpre l' (by simp [h']))

/-- C1 witness: a lowercase target matches an uppercase cache entry. -/
theorem arp_lookup_first_match_witness :
    arp_lookup_by_mac "52:54:00:aa:bb:cc".data
      ([] ++ "? (10.0.0.5) at 52:54:00:AA:BB:CC on en1 ifscope [ethernet]".data :: []) =
      some "10.0.0.5".data :=
  arp_lookup_first_match "52:54:00:aa:bb:cc".data "10.0.0.5".data _ [] []
    (by simp) (by decide)

/-! ## Claim theorems for the probe window -/

theorem probeWindowAt_length (hosts : List Nat) (idx limit : Nat) :
    (probeWindowAt hosts idx limit).length ≤ max 2 limit ∧
    (2 ≤ limit → (probeWindowAt hosts idx limit).length ≤ limit) := by
  have hl : (probeWindowAt hosts idx limit).length =
      min (min hosts.length (idx + max 1 (min (limit / 2) (hosts.length / 2))))
        hosts.length - (idx - max 1 (min (limit / 2) (hosts.length / 2))) := by
    simp [probeWindowAt, pySlice, List.length_drop, List.length_take, Nat.min_comm]
  constructor
  · rw [hl]; omega
  · intro h2; rw [hl]; omega

theorem probeWindowAt_subset (hosts : List Nat) (idx limit : Nat) :
    ∀ a ∈ probeWindowAt hosts idx limit, a ∈ hosts := by
  intro a ha
  simp only [probeWindowAt, pySlice] at ha
  exact List.take_subset _ _ (List.drop_subset _ _ ha)

/-- C2 counterexample: with configured limit 1 (and a host inside a `/29`
subnet) the window holds 2 candidates, exceeding the limit — the window
size is `max(1, ...)`, never below 1, and spans up to twice that. -/
theorem light_ping_sweep_limit_cex :
    (light_ping_sweep_candidates ⟨167772160, 29⟩ (some "10.0.0.3".data) 1).map
      List.length = some 2 ∧ ¬ (2 ≤ 1) := by
  constructor
  · decide
  · decide

/-- C2 (amended). For every subnet, every parseable host address and every
limit, the probe window stays within the subnet's enumerable host range and
holds at most `max 2 limit` candidates; whenever the limit is at least 2
(in particular at the default 64) it holds at most `limit` candidates, and
at the boundaries of the range the slice clamps rather than wrapping or
erroring. -/
theorem light_ping_sweep_window_bounds (network : IPv4Net) (s : Str) (host limit : Nat)
    (hs : ip_int_from_string s = some host) :
    ∃ cs, light_ping_sweep_candidates network (some s) limit = some cs ∧
      cs.length ≤ max 2 limit ∧ (2 ≤ limit → cs.length ≤ limit) ∧
      ∀ a ∈ cs, a ∈ hostsOf network := by
  refine ⟨probeWindowAt (hostsOf network) (hostIndex (hostsOf network) host) limit,
    ?_, (probeWindowAt_length _ _ _).1, (probeWindowAt_length _ _ _).2,
    probeWindowAt_subset _ _ _⟩
  simp [light_ping_sweep_candidates, hs]

/-- C2 witness: the default limit 64 on a `/29` with the host at the very
start of the range. -/
theorem light_ping_sweep_window_bounds_witness :
    ∃ cs, light_ping_sweep_candidates ⟨167772160, 29⟩ (some "10.0.0.1".data) 64 = some cs ∧
      cs.length ≤ max 2 64 ∧ (2 ≤ 64 → cs.length ≤ 64) ∧
      ∀ a ∈ cs, a ∈ hostsOf ⟨167772160, 29⟩ :=
  light_ping_sweep_window_bounds ⟨167772160, 29⟩ _ 167772161 64 (by decide)

/-- C9. When the host address does not occur in the subnet's host list,
`hosts.index` raises `ValueError` and the handler recentres the window at
the midpoint index `len(hosts) // 2` instead of failing. -/
theorem light_ping_sweep_midpoint (network : IPv4Net) (s : Str) (host limit : Nat)
    (hs : ip_int_from_string s = some host) (hnotin : host ∉ hostsOf network) :
    light_ping_sweep_candidates network (some s) limit =
      some (probeWindowAt (hostsOf network) ((hostsOf network).length / 2) limit) := by
  have hidx : (hostsOf network).findIdx? (fun x => x = host) = none := by
    apply List.findIdx?_eq_none_iff.2
    intro x hx
    simp only [decide_eq_false_iff_not]
    exact fun e => hnotin (e ▸ hx)
  simp [light_ping_sweep_candidates, hs, hostIndex, hidx]

/-- C9 witness: a host from another network against a `/29` subnet. -/
theorem light_ping_sweep_midpoint_witness :
    light_ping_sweep_candidates ⟨167772160, 29⟩ (some "192.168.1.5".data) 64 =
      some (probeWindowAt (hostsOf ⟨167772160, 29⟩)
        ((hostsOf ⟨167772160, 29⟩).length / 2) 64) :=
  light_ping_sweep_midpoint ⟨167772160, 29⟩ _ 3232235781 64 (by decide) (by decide)

/-! ## Claim theorems for `get_if_ip_netmask` -/

theorem noneIfEmpty_eq_none (l : Str) : noneIfEmpty l = none ↔ l = [] := by
  by_cases h : l = [] <;> simp [noneIfEmpty, h]

/-- C3 counterexample: when the query executable is missing,
`subprocess.run` raises `FileNotFoundError`, which `check=False` does not
suppress, so `get_if_ip_netmask` propagates an exception instead of
returning `(None, None)`. -/
theorem get_if_ip_netmask_missing_cex :
    get_if_ip_netmask CmdOutcome.missing (CmdOutcome.ran 0 [] []) =
      Except.error ['F', 'N', 'F'] := rfl

/-- C3 (amended). Whenever both query commands can be invoked, the resolver
never raises — any exit status is tolerated — and a field is `None` exactly
when its query printed nothing but whitespace (as failing queries do);
only a missing query executable makes the call raise. -/
theorem get_if_ip_netmask_ran (rc1 rc2 : Int) (out1 err1 out2 err2 : Str) :
    get_if_ip_netmask (.ran rc1 out1 err1) (.ran rc2 out2 err2) =
      .ok (noneIfEmpty (pyStrip out1), noneIfEmpty (pyStrip out2)) ∧
    (noneIfEmpty (pyStrip out1) = none ↔ ∀ c ∈ out1, isPySpace c = true) ∧
    (noneIfEmpty (pyStrip out2) = none ↔ ∀ c ∈ out2, isPySpace c = true) := by
  refine ⟨?_, ?_, ?_⟩
  · simp [get_if_ip_netmask, run, pyStrip_idem, Bind.bind, Except.bind, Pure.pure,
      Except.pure]
  · rw [noneIfEmpty_eq_none]; exact pyStrip_eq_nil_iff out1
  · rw [noneIfEmpty_eq_none]; exact pyStrip_eq_nil_iff out2

/-! ## Claim theorems for the discovery loop -/

theorem discoveryLoopAux_ext (f g : Nat → Option Str) (hasSubnet : Bool)
    (timeout sweepEvery poll : Nat) (h : ∀ t, f t = g t) :
    ∀ fuel t nextSweep sweeps,
      discoveryLoopAux f hasSubnet timeout sweepEvery poll fuel t nextSweep sweeps =
      discoveryLoopAux g hasSubnet timeout sweepEvery poll fuel t nextSweep sweeps := by
  intro fuel
  induction fuel with
  | zero => intro t ns sw; rfl
  | succ n ih =>
    intro t ns sw
    simp only [discoveryLoopAux, h t]
    by_cases hto : t < timeout
    · simp only [if_pos hto]
      cases g t with
      | some ip => rfl
      | none =>
        by_cases hsw : hasSubnet ∧ ns ≤ t
        · simp only [if_pos hsw]; exact ih _ _ _
        · simp only [if_neg hsw]; exact ih _ _ _
    · simp only [if_neg hto]

/-- C5 counterexample: in the scenario-B run (timeout 2 s = 20, poll
0.5 s = 5, cache always empty) the single sweep fires at elapsed time
1.0 s (10) — when the initial `next_sweep = t0 + 1.0` delay expires — not
at loop start (time 0): the first loop iteration performs no sweep. -/
theorem discovery_scenario_b_cex :
    (discoveryRun (fun _ => none) true 20 10).sweepTimes = [10] ∧
    ¬ (0 ∈ (discoveryRun (fun _ => none) true 20 10).sweepTimes) := by
  constructor
  · decide
  · decide

/-- C5 (amended). When the neighbour cache never contains the target MAC
and the subnet is known, the 2-second / 0.5-second discovery run times out
with `ip_found = None` at elapsed time 2.0 s (= 20 tenths; four poll
iterations), having fired exactly one probe sweep — at elapsed time 1.0 s
(= 10 tenths), when the initial one-second sweep delay expires — with zero
repeat sweeps (the 5-second sweep interval exceeds the timeout). -/
theorem discovery_scenario_b (lookup : Nat → Option Str) (h : ∀ t, lookup t = none) :
    discoveryRun lookup true 20 10 = ⟨none, 20, [10]⟩ := by
  rw [discoveryRun, discoveryLoopAux_ext lookup (fun _ => none) true 20 50 5 h 10 0 10 []]
  decide

/-- C5 witness: the always-empty cache. -/
theorem discovery_scenario_b_witness :
    discoveryRun (fun _ => none) true 20 10 = ⟨none, 20, [10]⟩ :=
  discovery_scenario_b (fun _ => none) (fun _ => rfl)

/-! ## Lemmas about the `ipaddress` model -/

theorem parse_octet_facts (s : Str) (o : Nat) (h : parse_octet s = some o) :
    s ≠ [] ∧ s.all Char.isDigit = true ∧ o ≤ 255 := by
  simp only [parse_octet] at h
  split_ifs at h with h1 h2 h3 h4 h5
  injection h with hh
  exact ⟨h1, h2, by omega⟩

theorem ip_int_from_string_elim (l : Str) (a : Nat) (h : ip_int_from_string l = some a) :
    ∃ s1 s2 s3 s4 o1 o2 o3 o4,
      splitOnChar '.' l = [s1, s2, s3, s4] ∧
      parse_octet s1 = some o1 ∧ parse_octet s2 = some o2 ∧
      parse_octet s3 = some o3 ∧ parse_octet s4 = some o4 ∧
      o1 ≤ 255 ∧ o2 ≤ 255 ∧ o3 ≤ 255 ∧ o4 ≤ 255 ∧
      a = o1 * 16777216 + o2 * 65536 + o3 * 256 + o4 := by
  simp only [ip_int_from_string] at h
  split_ifs at h with h0
  split at h
  next s1 s2 s3 s4 heq =>
    have h' : (parse_octet s1).bind (fun o1 => (parse_octet s2).bind (fun o2 =>
        (parse_octet s3).bind (fun o3 => (parse_octet s4).bind (fun o4 =>
          some (o1 * 16777216 + o2 * 65536 + o3 * 256 + o4))))) = some a := h
    cases k1 : parse_octet s1 with
    | none => rw [k1, Option.none_bind] at h'; exact absurd h' (by simp)
    | some o1 =>
      rw [k1, Option.some_bind] at h'
      cases k2 : parse_octet s2 with
      | none => rw [k2, Option.none_bind] at h'; exact absurd h' (by simp)
      | some o2 =>
        rw [k2, Option.some_bind] at h'
        cases k3 : parse_octet s3 with
        | none => rw [k3, Option.none_bind] at h'; exact absurd h' (by simp)
        | some o3 =>
          rw [k3, Option.some_bind] at h'
          cases k4 : parse_octet s4 with
          | none => rw [k4, Option.none_bind] at h'; exact absurd h' (by simp)
          | some o4 =>
            rw [k4, Option.some_bind] at h'
            exact ⟨s1, s2, s3, s4, o1, o2, o3, o4, heq, k1, k2, k3, k4,
              (parse_octet_facts _ _ k1).2.2, (parse_octet_facts _ _ k2).2.2,
              (parse_octet_facts _ _ k3).2.2, (parse_octet_facts _ _ k4).2.2,
              (Option.some.inj h').symm⟩
  next => exact absurd h (by simp)

theorem ip_int_lt_two_pow (l : Str) (a : Nat) (h : ip_int_from_string l = some a) :
    a < 2 ^ 32 := by
  obtain ⟨_, _, _, _, o1, o2, o3, o4, -, -, -, -, -, h1, h2, h3, h4, ha⟩ :=
    ip_int_from_string_elim l a h
  have : (2 : Nat) ^ 32 = 4294967296 := by norm_num
  omega

theorem ip_int_chars (l : Str) (a : Nat) (h : ip_int_from_string l = some a) :
    ∀ c ∈ l, c.isDigit = true ∨ c = '.' := by
  obtain ⟨s1, s2, s3, s4, o1, o2, o3, o4, hsplit, ho1, ho2, ho3, ho4, -⟩ :=
    ip_int_from_string_elim l a h
  intro c hc
  have hl : l = intercalateChar '.' [s1, s2, s3, s4] := by
    rw [← hsplit, intercalate_splitOnChar]
  rw [hl] at hc
  rcases mem_intercalateChar '.' _ c hc with e | ⟨p, hp, hcp⟩
  · exact Or.inr e
  · left
    simp only [List.mem_cons] at hp
    rcases hp with rfl | rfl | rfl | rfl | h'
    · exact List.all_eq_true.1 (parse_octet_facts _ _ ho1).2.1 c hcp
    · exact List.all_eq_true.1 (parse_octet_facts _ _ ho2).2.1 c hcp
    · exact List.all_eq_true.1 (parse_octet_facts _ _ ho3).2.1 c hcp
    · exact List.all_eq_true.1 (parse_octet_facts _ _ ho4).2.1 c hcp
    · simp at h'

theorem ip_int_no_slash (l : Str) (a : Nat) (h : ip_int_from_string l = some a) :
    '/' ∉ l := by
  intro hc
  rcases ip_int_chars l a h '/' hc with hd | hd
  · exact absurd hd (by decide)
  · exact absurd hd (by decide)

theorem prefix_from_prefix_string_le (s : Str) (p : Nat)
    (h : prefix_from_prefix_string s = some p) : p ≤ 32 := by
  simp only [prefix_from_prefix_string] at h
  split_ifs at h with h1 h2 h3
  injection h with hh
  omega

theorem prefix_from_ip_int_le (n p : Nat) (h : prefix_from_ip_int n = some p) :
    p ≤ 32 := by
  simp only [prefix_from_ip_int] at h
  split_ifs at h with h1
  injection h with hh
  omega

theorem make_netmask_le (s : Str) (p : Nat) (h : make_netmask s = some p) : p ≤ 32 := by
  simp only [make_netmask] at h
  split at h
  case h_1 q heq =>
    injection h with hh
    exact hh ▸ prefix_from_prefix_string_le s q heq
  case h_2 =>
    simp only [prefix_from_ip_string] at h
    split at h
    case h_1 => exact absurd h (by simp)
    case h_2 n heq =>
      split at h
      case h_1 q heq2 =>
        injection h with hh
        exact hh ▸ prefix_from_ip_int_le n q heq2
      case h_2 => exact prefix_from_ip_int_le _ p h

/-- C4. When the pair parses as an IPv4 network the function returns
exactly the network that `IPv4Network(ip/mask, strict=False)` produces,
which is the standard-CIDR containing network of the host address at the
parsed prefix length (the host address lies within it); when parsing fails
for any reason the function returns the `/24` network formed from the host
address's first three octets (fourth octet zero, prefix length 24). -/
theorem cidr_from_ip_mask_correct (ipL maskL : Str) (a : Nat)
    (hip : ip_int_from_string ipL = some a) :
    (∀ n, ipv4NetworkOfString (ipL ++ '/' :: maskL) = some n →
      cidr_from_ip_mask ipL maskL = some n ∧
      n = cidrContaining a n.prefixlen ∧ n.prefixlen ≤ 32 ∧
      n.addr ≤ a ∧ a < n.addr + 2 ^ (32 - n.prefixlen)) ∧
    (ipv4NetworkOfString (ipL ++ '/' :: maskL) = none →
      cidr_from_ip_mask ipL maskL = some (cidrContaining a 24)) := by
  have ha32 : a < 2 ^ 32 := ip_int_lt_two_pow ipL a hip
  have hslash : '/' ∉ ipL := ip_int_no_slash ipL a hip
  have hsplitc : splitOnChar '/' (ipL ++ '/' :: maskL) = ipL :: splitOnChar '/' maskL :=
    splitOnChar_append_sep '/' ipL maskL hslash
  constructor
  · intro n hn
    have hcidr : cidr_from_ip_mask ipL maskL = some n := by
      rw [cidr_from_ip_mask, hn]
    obtain ⟨p, hple, hneq⟩ : ∃ p, p ≤ 32 ∧ n = ⟨Nat.land a (netmaskInt p), p⟩ := by
      rw [ipv4NetworkOfString, hsplitc] at hn
      cases hm : splitOnChar '/' maskL with
      | nil => exact absurd hm (splitOnChar_ne_nil _ _)
      | cons m ms =>
        rw [hm] at hn
        cases ms with
        | nil =>
          have hn' : (ip_int_from_string ipL).bind (fun ip =>
              (make_netmask m).bind (fun p =>
                some (⟨Nat.land ip (netmaskInt p), p⟩ : IPv4Net))) = some n := hn
          rw [hip, Option.some_bind] at hn'
          cases hmk : make_netmask m with
          | none => rw [hmk, Option.none_bind] at hn'; exact absurd hn' (by simp)
          | some p =>
            rw [hmk, Option.some_bind] at hn'
            exact ⟨p, make_netmask_le m p hmk, (Option.some.inj hn').symm⟩
        | cons m2 ms2 => simp at hn
    have hland : Nat.land a (netmaskInt p) = a / 2 ^ (32 - p) * 2 ^ (32 - p) :=
      land_netmaskInt a p ha32 hple
    have hdm : a / 2 ^ (32 - p) * 2 ^ (32 - p) + a % 2 ^ (32 - p) = a := by
      rw [Nat.mul_comm]
      exact Nat.div_add_mod a (2 ^ (32 - p))
    have hmod : a % 2 ^ (32 - p) < 2 ^ (32 - p) :=
      Nat.mod_lt _ (Nat.pos_pow_of_pos _ (by norm_num))
    refine ⟨hcidr, ?_, by rw [hneq]; exact hple, ?_, ?_⟩
    · rw [hneq, cidrContaining]
      simp only [hland]
    · rw [hneq]
      simp only [hland]
      omega
    · rw [hneq]
      simp only [hland]
      omega
  · intro hn
    obtain ⟨s1, s2, s3, s4, o1, o2, o3, o4, hsplit, ho1, ho2, ho3, ho4,
      hb1, hb2, hb3, hb4, ha⟩ := ip_int_from_string_elim ipL a hip
    rw [cidr_from_ip_mask, hn]
    show ipv4NetworkOfString (intercalateChar '.'
      ((splitOnChar '.' ipL).take 3 ++ [['0']]) ++ ['/', '2', '4']) = some (cidrContaining a 24)
    rw [hsplit]
    show ipv4NetworkOfString (intercalateChar '.' [s1, s2, s3, ['0']] ++ ['/', '2', '4']) =
      some (cidrContaining a 24)
    have hdigits : ∀ i ∈ [s1, s2, s3, s4], i.all Char.isDigit = true := by
      intro i hi
      simp only [List.mem_cons] at hi
      rcases hi with rfl | rfl | rfl | rfl | h'
      · exact (parse_octet_facts _ _ ho1).2.1
      · exact (parse_octet_facts _ _ ho2).2.1
      · exact (parse_octet_facts _ _ ho3).2.1
      · exact (parse_octet_facts _ _ ho4).2.1
      · simp at h'
    have hdotfree : ∀ i ∈ [s1, s2, s3, (['0'] : Str)], '.' ∉ i := by
      intro i hi
      have hi' : i = s1 ∨ i = s2 ∨ i = s3 ∨ i = ['0'] := by simpa using hi
      rcases hi' with e | e | e | e
      · rw [e]; exact sep_not_mem_of_mem_splitOnChar '.' ipL s1 (by rw [hsplit]; simp)
      · rw [e]; exact sep_not_mem_of_mem_splitOnChar '.' ipL s2 (by rw [hsplit]; simp)
      · rw [e]; exact sep_not_mem_of_mem_splitOnChar '.' ipL s3 (by rw [hsplit]; simp)
      · rw [e]; decide
    have hAsplit : splitOnChar '.' (intercalateChar '.' [s1, s2, s3, ['0']]) =
        [s1, s2, s3, ['0']] :=
      splitOnChar_intercalate '.' _ hdotfree (by simp)
    have hAne : intercalateChar '.' [s1, s2, s3, ['0']] ≠ [] := by
      intro e
      rw [e] at hAsplit
      simp [splitOnChar] at hAsplit
    have hslashoct : ∀ (s : Str) (o : Nat), parse_octet s = some o → '/' ∉ s := by
      intro s o ho hmem
      have := List.all_eq_true.1 (parse_octet_facts _ _ ho).2.1 '/' hmem
      exact absurd this (by decide)
    have hAslash : '/' ∉ intercalateChar '.' [s1, s2, s3, ['0']] := by
      intro hc
      rcases mem_intercalateChar '.' _ '/' hc with e | ⟨q, hq, hcq⟩
      · exact absurd e (by decide)
      · have hq' : q = s1 ∨ q = s2 ∨ q = s3 ∨ q = ['0'] := by simpa using hq
        rcases hq' with e | e | e | e
        · exact hslashoct s1 o1 ho1 (e ▸ hcq)
        · exact hslashoct s2 o2 ho2 (e ▸ hcq)
        · exact hslashoct s3 o3 ho3 (e ▸ hcq)
        · exact absurd (e ▸ hcq) (by decide)
    have hipA : ip_int_from_string (intercalateChar '.' [s1, s2, s3, ['0']]) =
        some (o1 * 16777216 + o2 * 65536 + o3 * 256 + 0) := by
      rw [ip_int_from_string, if_neg hAne, hAsplit]
      simp [ho1, ho2, ho3, show parse_octet ['0'] = some 0 from by decide]
    have hsplit24 : splitOnChar '/' (intercalateChar '.' [s1, s2, s3, ['0']] ++
        ['/', '2', '4']) = [intercalateChar '.' [s1, s2, s3, ['0']], ['2', '4']] := by
      rw [show (['/', '2', '4'] : Str) = '/' :: ['2', '4'] from rfl,
        splitOnChar_append_sep '/' _ _ hAslash]
      rfl
    rw [ipv4NetworkOfString, hsplit24]
    show (ip_int_from_string (intercalateChar '.' [s1, s2, s3, ['0']])).bind (fun ip =>
        (make_netmask ['2', '4']).bind (fun p =>
          some (⟨Nat.land ip (netmaskInt p), p⟩ : IPv4Net))) = some (cidrContaining a 24)
    rw [hipA, Option.some_bind, show make_netmask ['2', '4'] = some 24 from by decide,
      Option.some_bind]
    have h24 : Nat.land (o1 * 16777216 + o2 * 65536 + o3 * 256 + 0) (netmaskInt 24) =
        (o1 * 16777216 + o2 * 65536 + o3 * 256 + 0) / 2 ^ (32 - 24) * 2 ^ (32 - 24) := by
      apply land_netmaskInt
      · have : (2 : Nat) ^ 32 = 4294967296 := by norm_num
        omega
      · norm_num
    rw [h24, cidrContaining]
    have hpow : (2 : Nat) ^ (32 - 24) = 256 := by norm_num
    rw [hpow]
    simp only [Option.some.injEq, IPv4Net.mk.injEq, and_true]
    omega

/-- C4 witness: a dotted netmask on the host `10.193.80.64`, parsed by the
main path. -/
theorem cidr_from_ip_mask_correct_witness :
    cidr_from_ip_mask "10.193.80.64".data "255.255.255.0".data =
      some ⟨10 * 16777216 + 193 * 65536 + 80 * 256, 24⟩ ∧
    ⟨10 * 16777216 + 193 * 65536 + 80 * 256, 24⟩ =
      cidrContaining (10 * 16777216 + 193 * 65536 + 80 * 256 + 64)
        (IPv4Net.prefixlen ⟨10 * 16777216 + 193 * 65536 + 80 * 256, 24⟩) := by
  have h := (cidr_from_ip_mask_correct "10.193.80.64".data "255.255.255.0".data
    (10 * 16777216 + 193 * 65536 + 80 * 256 + 64) (by decide)).1
    ⟨10 * 16777216 + 193 * 65536 + 80 * 256, 24⟩ (by decide)
  exact ⟨h.1, h.2.1⟩

end SpawnVm
